import Mathlib

/-!
# Verification of the serac tensor / boundary-integral kernel layer

This file gives a shallow embedding, over exact rational arithmetic, of the
fixed-shape tensor algebra in `serac/numerics/functional/tensor.hpp` and of the
`BoundaryIntegral` facade in `boundary_integral.hpp`, and proves (or refutes)
the specification claims about them.

Conventions of the embedding:
* `double` values are modelled by `ℚ` (exact arithmetic);
* a `tensor<T, m>` is a function `Fin m → ℚ`, a `tensor<T, m, n>` is a
  `Matrix (Fin m) (Fin n) ℚ` (which is definitionally `Fin m → Fin n → ℚ`),
  matching the row-major nested structure of the source type;
* accumulation loops (`for (...) acc += ...`) are embedded as `List.foldl`
  over `List.finRange`, preserving the source's iteration order;
* rank-generic operations (`make_dual`, the `zero` sentinel interactions) use
  a shape-indexed tensor type `Tensor ds` with `ds : List ℕ` the extents.
-/

namespace Serac

/-- Sum-accumulation loops unfold to a list sum: `acc; for x in l, acc += f x`. -/
theorem foldl_add_eq {α : Type _} (f : α → ℚ) (l : List α) (a : ℚ) :
    l.foldl (fun acc x => acc + f x) a = a + (l.map f).sum := by
  induction l generalizing a with
  | nil => simp
  | cons x xs ih => simp [ih, add_assoc]

/-- A fold of additions over `List.finRange` is the `Finset.univ` sum. -/
theorem foldl_finRange_sum {n : ℕ} (f : Fin n → ℚ) :
    (List.finRange n).foldl (fun acc x => acc + f x) 0 = ∑ i, f i := by
  rw [foldl_add_eq, zero_add, Fin.sum_univ_def]

/-! ## `dot` overloads (tensor.hpp)

Each overload is embedded with the loop structure of the source: the output
entry is an accumulator initialised to zero and updated once per loop
iteration. -/

/-- `dot(vector, matrix)` (tensor.hpp):
`for i < n: for j < m: AB[i] = AB[i] + A[j] * B[j][i]`. -/
def dot_vm {m n : ℕ} (A : Fin m → ℚ) (B : Matrix (Fin m) (Fin n) ℚ) : Fin n → ℚ :=
  fun i => (List.finRange m).foldl (fun acc j => acc + A j * B j i) 0

/-- `dot(matrix, vector)` (tensor.hpp):
`for i < m: for j < n: AB[i] = AB[i] + A[i][j] * B[j]`. -/
def dot_mv {m n : ℕ} (A : Matrix (Fin m) (Fin n) ℚ) (B : Fin n → ℚ) : Fin m → ℚ :=
  fun i => (List.finRange n).foldl (fun acc j => acc + A i j * B j) 0

/-- `dot(vector, 3rd-order-tensor)` (tensor.hpp): the whole rank-2 accumulator
is updated per iteration, `AB = AB + A[j] * B[j]`, using the tensor `+` and
scalar `*` operators (both entrywise). -/
def dot_vt3 {m n p : ℕ} (A : Fin m → ℚ) (B : Fin m → Matrix (Fin n) (Fin p) ℚ) :
    Matrix (Fin n) (Fin p) ℚ :=
  (List.finRange m).foldl (fun acc j => fun i k => acc i k + A j * B j i k) (fun _ _ => 0)

/-- `dot(3rd-order-tensor, vector)` (tensor.hpp):
`for i,j: for k < p: AB[i][j] += A[i][j][k] * B[k]`. -/
def dot_t3v {m n p : ℕ} (A : Fin m →Fin n → Fin p → ℚ) (B : Fin p → ℚ) :
    Matrix (Fin m) (Fin n) ℚ :=
  fun i j => (List.finRange p).foldl (fun acc k => acc + A i j k * B k) 0

/-- `dot(matrix, matrix)` (tensor.hpp):
`for i,j: for k < n: AB[i][j] = AB[i][j] + A[i][k] * B[k][j]`. -/
def dot_mm {m n p : ℕ} (A : Matrix (Fin m) (Fin n) ℚ) (B : Matrix (Fin n) (Fin p) ℚ) :
    Matrix (Fin m) (Fin p) ℚ :=
  fun i j => (List.finRange n).foldl (fun acc k => acc + A i k * B k j) 0

/-- The embedded `dot(matrix, matrix)` is `Matrix` multiplication. -/
theorem dot_mm_eq_mul {m n p : ℕ} (A : Matrix (Fin m) (Fin n) ℚ)
    (B : Matrix (Fin n) (Fin p) ℚ) : dot_mm A B = A * B := by
  funext i j
  rw [dot_mm, foldl_finRange_sum, Matrix.mul_apply]

/-- `DenseIdentity` (tensor.hpp): `I[i][j] = (i == j)`. -/
def DenseIdentity (n : ℕ) : Matrix (Fin n) (Fin n) ℚ :=
  fun i j => if i = j then 1 else 0

theorem DenseIdentity_eq_one (n : ℕ) : DenseIdentity n = (1 : Matrix (Fin n) (Fin n) ℚ) := by
  funext i j
  simp [DenseIdentity, Matrix.one_apply]

/-- A pointwise evaluation rule for the rank-2 accumulator fold in `dot_vt3`. -/
theorem dot_vt3_apply {m n p : ℕ} (A : Fin m → ℚ) (B : Fin m → Matrix (Fin n) (Fin p) ℚ)
    (i : Fin n) (k : Fin p) :
    dot_vt3 A B i k = (List.finRange m).foldl (fun acc j => acc + A j * B j i k) 0 := by
  rw [dot_vt3]
  generalize (0 : ℚ) = a₀
  have h : ∀ (l : List (Fin m)) (acc : Matrix (Fin n) (Fin p) ℚ),
      l.foldl (fun acc j => fun i k => acc i k + A j * B j i k) acc i k
        = l.foldl (fun acc j => acc + A j * B j i k) (acc i k) := by
    intro l
    induction l with
    | nil => intro acc; rfl
    | cons x xs ih => intro acc; exact ih _
  exact h (List.finRange m) _

/--
**C6.** `dot` with a vector on the left contracts over the tensor's first
index, and `dot` with a vector on the right contracts over the tensor's last
index, for the vector·matrix, vector·3rd-order, matrix·vector and
3rd-order·vector overloads of `tensor.hpp`.
-/
theorem dot_vector_contraction_convention :
    (∀ (m n : ℕ) (A : Fin m → ℚ) (B : Matrix (Fin m) (Fin n) ℚ) (j : Fin n),
        dot_vm A B j = ∑ i, A i * B i j) ∧
    (∀ (m n p : ℕ) (A : Fin m → ℚ) (B : Fin m → Matrix (Fin n) (Fin p) ℚ)
        (j : Fin n) (k : Fin p), dot_vt3 A B j k = ∑ i, A i * B i j k) ∧
    (∀ (m n : ℕ) (A : Matrix (Fin m) (Fin n) ℚ) (B : Fin n → ℚ) (i : Fin m),
        dot_mv A B i = ∑ k, A i k * B k) ∧
    (∀ (m n p : ℕ) (A : Fin m → Fin n → Fin p → ℚ) (B : Fin p → ℚ)
        (i : Fin m) (j : Fin n), dot_t3v A B i j = ∑ k, A i j k * B k) := by
  refine ⟨?_, ?_, ?_, ?_⟩
  · intro m n A B j
    rw [dot_vm, foldl_finRange_sum]
  · intro m n p A B j k
    rw [dot_vt3_apply, foldl_finRange_sum]
  · intro m n A B i
    rw [dot_mv, foldl_finRange_sum]
  · intro m n p A B i j
    rw [dot_t3v, foldl_finRange_sum]

/-! ## trace and deviator (tensor.hpp) -/

/-- `tr` (tensor.hpp): `for i < n: trA = trA + A[i][i]`. -/
def tr {n : ℕ} (A : Matrix (Fin n) (Fin n) ℚ) : ℚ :=
  (List.finRange n).foldl (fun acc i => acc + A i i) 0

theorem tr_eq_sum {n : ℕ} (A : Matrix (Fin n) (Fin n) ℚ) : tr A = ∑ i, A i i :=
  foldl_finRange_sum _

/-- `dev` (tensor.hpp): copies `A` and performs `devA[i][i] -= trA / n` on the
diagonal (`n` is the `int` template parameter, converted to `double`). -/
def dev {n : ℕ} (A : Matrix (Fin n) (Fin n) ℚ) : Matrix (Fin n) (Fin n) ℚ :=
  fun i j => if i = j then A i j - tr A / (n : ℚ) else A i j

/--
**C10.** For every `n×n` matrix `A`, the deviator has exactly zero trace in
exact arithmetic: `tr (dev A) = 0`.
-/
theorem tr_dev_eq_zero {n : ℕ} (A : Matrix (Fin n) (Fin n) ℚ) : tr (dev A) = 0 := by
  rcases Nat.eq_zero_or_pos n with h0 | hpos
  · subst h0
    rw [tr_eq_sum]
    simp
  · have hn : (n : ℚ) ≠ 0 := Nat.cast_ne_zero.mpr (Nat.pos_iff_ne_zero.mp hpos)
    rw [tr_eq_sum]
    have : ∀ i : Fin n, dev A i i = A i i - tr A / (n : ℚ) := by
      intro i; simp [dev]
    calc ∑ i, dev A i i = ∑ i : Fin n, (A i i - tr A / (n : ℚ)) := by
          exact Finset.sum_congr rfl (fun i _ => this i)
      _ = (∑ i, A i i) - (n : ℚ) * (tr A / (n : ℚ)) := by
          rw [Finset.sum_sub_distrib, Finset.sum_const, Finset.card_univ,
            Fintype.card_fin, nsmul_eq_mul]
      _ = 0 := by
          rw [mul_div_cancel₀ _ hn, ← tr_eq_sum, sub_self]

/-! ## determinants, symmetry and positive-definiteness checks (tensor.hpp) -/

/-- `det` for 2×2 (tensor.hpp). -/
def det2 (A : Matrix (Fin 2) (Fin 2) ℚ) : ℚ :=
  A 0 0 * A 1 1 - A 0 1 * A 1 0

/-- `det` for 3×3 (tensor.hpp). -/
def det3 (A : Matrix (Fin 3) (Fin 3) ℚ) : ℚ :=
  A 0 0 * A 1 1 * A 2 2 + A 0 1 * A 1 2 * A 2 0 + A 0 2 * A 1 0 * A 2 1 -
    A 0 0 * A 1 2 * A 2 1 - A 0 1 * A 1 0 * A 2 2 - A 0 2 * A 1 1 * A 2 0

/-- The default symmetry tolerance of `is_symmetric` (tensor.hpp), `1.0e-8`. -/
def sym_tolerance : ℚ := 1 / 100000000

/-- `is_symmetric` (tensor.hpp): returns `false` as soon as a pair `(i, j)`,
`j > i`, has `|A(i,j) - A(j,i)| > tolerance`; otherwise `true`. -/
def is_symmetric {n : ℕ} (A : Matrix (Fin n) (Fin n) ℚ) (tolerance : ℚ := sym_tolerance) :
    Bool :=
  (List.finRange n).all fun i =>
    (List.finRange n).all fun j =>
      if i < j then decide (|A i j - A j i| ≤ tolerance) else true

theorem is_symmetric_iff {n : ℕ} (A : Matrix (Fin n) (Fin n) ℚ) (tol : ℚ) :
    is_symmetric A tol = true ↔ ∀ i j : Fin n, i < j → |A i j - A j i| ≤ tol := by
  unfold is_symmetric
  rw [List.all_eq_true]
  constructor
  · intro h i j hij
    have h1 := h i (List.mem_finRange i)
    rw [List.all_eq_true] at h1
    have h2 := h1 j (List.mem_finRange j)
    simpa [hij] using h2
  · intro h i _
    rw [List.all_eq_true]
    intro j _
    by_cases hij : i < j
    · simpa [hij] using h i j hij
    · simp [hij]

/-- `is_symmetric_and_positive_definite` for 2×2 (tensor.hpp): rejects when the
matrix is not symmetric, when `A(0,0) < 0`, or when `det(A) < 0`. -/
def is_spd2 (A : Matrix (Fin 2) (Fin 2) ℚ) : Bool :=
  if ¬ (is_symmetric A = true) then false
  else if A 0 0 < 0 then false
  else if det2 A < 0 then false
  else true

/-- the 2×2 upper-left block extracted by `make_tensor<2,2>` inside the 3×3
overload of `is_symmetric_and_positive_definite`. -/
def upperLeft2 (A : Matrix (Fin 3) (Fin 3) ℚ) : Matrix (Fin 2) (Fin 2) ℚ :=
  fun i j => A i.castSucc j.castSucc

/-- `is_symmetric_and_positive_definite` for 3×3 (tensor.hpp): rejects when not
symmetric, when `det(A) < 0`, or when the leading 2×2 block is rejected. -/
def is_spd3 (A : Matrix (Fin 3) (Fin 3) ℚ) : Bool :=
  if ¬ (is_symmetric A = true) then false
  else if det3 A < 0 then false
  else if ¬ (is_spd2 (upperLeft2 A) = true) then false
  else true

/--
**C3 (code bug).** On the zero 2×2 matrix, the code returns `true`
although no leading principal minor is strictly positive, so
"`is_symmetric_and_positive_definite(A)` returns `true` iff `A` is symmetric
and every leading principal minor is `> 0`" is false on the code: the code's
own doc comment promises "determinant greater than zero" but the
implementation only rejects strictly negative minors.
-/
theorem is_spd2_accepts_zero_matrix :
    is_spd2 (fun _ _ => 0) = true ∧
      ¬ ((0 : ℚ) < (fun (_ _ : Fin 2) => (0 : ℚ)) 0 0 ∧ 0 < det2 (fun _ _ => 0)) := by
  constructor
  · have hsym : is_symmetric (fun (_ _ : Fin 2) => (0 : ℚ)) = true := by
      rw [is_symmetric_iff]
      intro i j _
      rw [sub_self, abs_zero, sym_tolerance]
      norm_num
    rw [is_spd2]
    norm_num [hsym, det2]
  · intro h
    exact absurd h.1 (by norm_num)

/-! ## closed-form inverses (tensor.hpp) -/

/-- `inv` for 2×2 (tensor.hpp): adjugate entries scaled by `1 / det(A)`. -/
def inv2 (A : Matrix (Fin 2) (Fin 2) ℚ) : Matrix (Fin 2) (Fin 2) ℚ :=
  let inv_detA := 1 / det2 A
  !![A 1 1 * inv_detA, -A 0 1 * inv_detA;
     -A 1 0 * inv_detA, A 0 0 * inv_detA]

/-- `inv` for 3×3 (tensor.hpp): cofactor formulas scaled by `1 / det(A)`. -/
def inv3 (A : Matrix (Fin 3) (Fin 3) ℚ) : Matrix (Fin 3) (Fin 3) ℚ :=
  let inv_detA := 1 / det3 A
  !![(A 1 1 * A 2 2 - A 1 2 * A 2 1) * inv_detA,
     (A 0 2 * A 2 1 - A 0 1 * A 2 2) * inv_detA,
     (A 0 1 * A 1 2 - A 0 2 * A 1 1) * inv_detA;
     (A 1 2 * A 2 0 - A 1 0 * A 2 2) * inv_detA,
     (A 0 0 * A 2 2 - A 0 2 * A 2 0) * inv_detA,
     (A 0 2 * A 1 0 - A 0 0 * A 1 2) * inv_detA;
     (A 1 0 * A 2 1 - A 1 1 * A 2 0) * inv_detA,
     (A 0 1 * A 2 0 - A 0 0 * A 2 1) * inv_detA,
     (A 0 0 * A 1 1 - A 0 1 * A 1 0) * inv_detA]

theorem inv2_correct (A : Matrix (Fin 2) (Fin 2) ℚ) (h : det2 A ≠ 0) :
    dot_mm A (inv2 A) = DenseIdentity 2 ∧ dot_mm (inv2 A) A = DenseIdentity 2 := by
  have hd : det2 A ≠ 0 := h
  rw [det2] at hd
  constructor <;>
  · funext i j
    rw [dot_mm, foldl_finRange_sum, Fin.sum_univ_two]
    fin_cases i <;> fin_cases j <;>
      simp [inv2, DenseIdentity, det2, Fin.ext_iff] <;>
      field_simp <;> ring

set_option maxHeartbeats 1000000 in
theorem inv3_correct (A : Matrix (Fin 3) (Fin 3) ℚ) (h : det3 A ≠ 0) :
    dot_mm A (inv3 A) = DenseIdentity 3 ∧ dot_mm (inv3 A) A = DenseIdentity 3 := by
  have hd : det3 A ≠ 0 := h
  rw [det3] at hd
  constructor <;>
  · funext i j
    rw [dot_mm, foldl_finRange_sum, Fin.sum_univ_three]
    fin_cases i <;> fin_cases j <;>
      simp [inv3, DenseIdentity, det3, Fin.ext_iff] <;>
      field_simp <;> ring

/-! ## C4: `operator/(S, tensor<T, m, n...>)` result shape -/

/-- Shape-level embedding of `operator/(S, tensor<T, m, n...>)` (tensor.hpp):
the result variable is declared as `tensor<decltype(S{} * T{}), n...>`, i.e.
with extents `ns`, dropping the leading extent `m` of the input. -/
def scalar_div_tensor_result_dims (_m : ℕ) (ns : List ℕ) : List ℕ := ns

/-- The loop of `operator/(S, tensor<T, m, n...>)` writes `C[i]` for every
`i` in `0, ..., m-1` along the result's leading dimension. -/
def scalar_div_tensor_written_indices (m : ℕ) : List ℕ := List.range m

/--
**C4 (code bug).** For `A : tensor<double, 3, 2>`, the result of `s / A` is
declared with shape `(2)` instead of the input shape `(3, 2)`, and the loop
writes index `2`, which is out of bounds for the result's leading extent `2`.
-/
theorem scalar_div_tensor_shape_bug :
    scalar_div_tensor_result_dims 3 [2] ≠ [3, 2] ∧
      2 ∈ scalar_div_tensor_written_indices 3 ∧
      ¬ (2 < (scalar_div_tensor_result_dims 3 [2]).headI) := by
  refine ⟨by decide, by decide, by decide⟩

/-! ## The general `inv` (tensor.hpp): Gauss elimination with partial pivoting

`inv(const tensor<T, n, n>&)` starts from `B = DenseIdentity<n>()` and, for
each column `i`, searches the maximum absolute value in the unreduced column,
swaps that row up, eliminates below, and finally back-substitutes. The loops
mutate `(A, B)` in place; each loop body is embedded as a pure step. -/

/-- The pivot search of `inv` (tensor.hpp): starting from `max_row = i`, scan
`j = i+1, ..., n-1` and keep the row with the largest `|A[j][i]|`. -/
def pivotRow {n : ℕ} (A : Matrix (Fin n) (Fin n) ℚ) (i : Fin n) : Fin n :=
  ((List.finRange n).filter (fun j => decide (i < j))).foldl
    (fun r j => if |A j i| > |A r i| then j else r) i

/-- `swap(M[max_row], M[i])` (tensor.hpp). -/
def rowSwap {n : ℕ} (M : Matrix (Fin n) (Fin n) ℚ) (i r : Fin n) :
    Matrix (Fin n) (Fin n) ℚ :=
  fun j k => M (Equiv.swap i r j) k

/-- The elimination loop of `inv` acting on `A` (tensor.hpp): for each `j > i`
with `A[j][i] != 0`, perform `A[j] += (-A[j][i]/A[i][i]) * A[i]` followed by the
explicit assignment `A[j][i] = 0`. -/
def elimA {n : ℕ} (A : Matrix (Fin n) (Fin n) ℚ) (i : Fin n) :
    Matrix (Fin n) (Fin n) ℚ :=
  fun j k =>
    if i < j ∧ A j i ≠ 0 then
      if k = i then 0 else A j k + -(A j i) / A i i * A i k
    else A j k

/-- The elimination loop of `inv` acting on `B` (tensor.hpp): for each `j > i`
with `A[j][i] != 0`, perform `B[j] += (-A[j][i]/A[i][i]) * B[i]`. -/
def elimB {n : ℕ} (A B : Matrix (Fin n) (Fin n) ℚ) (i : Fin n) :
    Matrix (Fin n) (Fin n) ℚ :=
  fun j k =>
    if i < j ∧ A j i ≠ 0 then B j k + -(A j i) / A i i * B i k
    else B j k

/-- One iteration of the forward phase of `inv` (tensor.hpp): pivot search,
row swap of both `A` and `B`, elimination below the pivot. -/
def fwdStep {n : ℕ} (AB : Matrix (Fin n) (Fin n) ℚ × Matrix (Fin n) (Fin n) ℚ)
    (i : Fin n) : Matrix (Fin n) (Fin n) ℚ × Matrix (Fin n) (Fin n) ℚ :=
  let r := pivotRow AB.1 i
  let A1 := rowSwap AB.1 i r
  let B1 := rowSwap AB.2 i r
  (elimA A1 i, elimB A1 B1 i)

/-- The forward loop `for (i = 0; i < n; i++)` of `inv`, unrolled to its first
`i` iterations. -/
def forwardAux {n : ℕ} (AB : Matrix (Fin n) (Fin n) ℚ × Matrix (Fin n) (Fin n) ℚ) :
    ℕ → Matrix (Fin n) (Fin n) ℚ × Matrix (Fin n) (Fin n) ℚ
  | 0 => AB
  | i + 1 =>
    if h : i < n then fwdStep (forwardAux AB i) ⟨i, h⟩ else forwardAux AB i

/-- The completed forward phase of `inv`, starting from `B = DenseIdentity`. -/
def forward {n : ℕ} (A : Matrix (Fin n) (Fin n) ℚ) :
    Matrix (Fin n) (Fin n) ℚ × Matrix (Fin n) (Fin n) ℚ :=
  forwardAux (A, DenseIdentity n) n

/-- One iteration of the upper-triangular solve of `inv` (tensor.hpp):
`B[i] = B[i] / A[i][i]`, then `B[j] -= A[j][i] * B[i]` for each `j < i` with
`A[j][i] != 0` (using the just-updated row `B[i]`). -/
def backStep {n : ℕ} (T B : Matrix (Fin n) (Fin n) ℚ) (i : Fin n) :
    Matrix (Fin n) (Fin n) ℚ :=
  fun j k =>
    if j = i then B i k / T i i
    else if j < i ∧ T j i ≠ 0 then B j k - T j i * (B i k / T i i)
    else B j k

/-- The backward loop `for (i = n - 1; i >= 0; i--)` of `inv`:
`backFrom T i B` processes rows `i-1, i-2, ..., 0`, highest first. -/
def backFrom {n : ℕ} (T : Matrix (Fin n) (Fin n) ℚ) :
    ℕ → Matrix (Fin n) (Fin n) ℚ → Matrix (Fin n) (Fin n) ℚ
  | 0, B => B
  | i + 1, B =>
    if h : i < n then backFrom T i (backStep T B ⟨i, h⟩) else backFrom T i B

/-- The general-`n` `inv` of tensor.hpp: forward elimination with partial
pivoting followed by the upper-triangular solve. -/
def inv_gauss {n : ℕ} (A : Matrix (Fin n) (Fin n) ℚ) : Matrix (Fin n) (Fin n) ℚ :=
  let TB := forward A
  backFrom TB.1 n TB.2

/-! ### pivot search: the selected row is at or below `i` and carries the
column maximum -/

theorem pivot_foldl_spec {n : ℕ} (A : Matrix (Fin n) (Fin n) ℚ) (i : Fin n)
    (l : List (Fin n)) (r : Fin n) :
    (l.foldl (fun r j => if |A j i| > |A r i| then j else r) r = r ∨
      l.foldl (fun r j => if |A j i| > |A r i| then j else r) r ∈ l) ∧
    |A r i| ≤ |A (l.foldl (fun r j => if |A j i| > |A r i| then j else r) r) i| ∧
    ∀ j ∈ l, |A j i| ≤ |A (l.foldl (fun r j => if |A j i| > |A r i| then j else r) r) i| := by
  induction l generalizing r with
  | nil => exact ⟨Or.inl rfl, le_refl _, fun j hj => absurd hj (List.not_mem_nil j)⟩
  | cons x xs ih =>
    have step :
        (x :: xs).foldl (fun r j => if |A j i| > |A r i| then j else r) r
          = xs.foldl (fun r j => if |A j i| > |A r i| then j else r)
              (if |A x i| > |A r i| then x else r) := rfl
    obtain ⟨hmem, hge, hall⟩ := ih (if |A x i| > |A r i| then x else r)
    have hstep_ge : |A r i| ≤ |A (if |A x i| > |A r i| then x else r) i| := by
      by_cases hx : |A x i| > |A r i|
      · rw [if_pos hx]; exact le_of_lt hx
      · rw [if_neg hx]
    have hstep_x : |A x i| ≤ |A (if |A x i| > |A r i| then x else r) i| := by
      by_cases hx : |A x i| > |A r i|
      · rw [if_pos hx]
      · rw [if_neg hx]; exact le_of_not_lt hx
    refine ⟨?_, ?_, ?_⟩
    · rw [step]
      rcases hmem with h | h
      · rw [h]
        by_cases hx : |A x i| > |A r i|
        · rw [if_pos hx]; exact Or.inr (List.mem_cons_self x xs)
        · rw [if_neg hx]; exact Or.inl rfl
      · exact Or.inr (List.mem_cons_of_mem x h)
    · rw [step]; exact le_trans hstep_ge hge
    · intro j hj
      rw [step]
      rcases List.mem_cons.mp hj with h | h
      · subst h; exact le_trans hstep_x hge
      · exact hall j h

theorem pivotRow_ge {n : ℕ} (A : Matrix (Fin n) (Fin n) ℚ) (i : Fin n) :
    i ≤ pivotRow A i := by
  obtain ⟨hmem, -, -⟩ :=
    pivot_foldl_spec A i ((List.finRange n).filter (fun j => decide (i < j))) i
  rcases hmem with h | h
  · rw [pivotRow, h]
  · have := List.of_mem_filter (p := fun j => decide (i < j)) h
    exact le_of_lt (of_decide_eq_true this)

theorem pivotRow_max {n : ℕ} (A : Matrix (Fin n) (Fin n) ℚ) (i : Fin n) :
    ∀ j, i ≤ j → |A j i| ≤ |A (pivotRow A i) i| := by
  intro j hij
  obtain ⟨-, hge, hall⟩ :=
    pivot_foldl_spec A i ((List.finRange n).filter (fun j => decide (i < j))) i
  rcases lt_or_eq_of_le hij with h | h
  · exact hall j (List.mem_filter.mpr ⟨List.mem_finRange j, decide_eq_true h⟩)
  · subst h; exact hge

/-! ### row swap: commutes with right multiplication, preserves nonzero
determinant -/

theorem rowSwap_eq_submatrix {n : ℕ} (M : Matrix (Fin n) (Fin n) ℚ) (i r : Fin n) :
    rowSwap M i r = M.submatrix (Equiv.swap i r) id := rfl

theorem rowSwap_mul {n : ℕ} (M P : Matrix (Fin n) (Fin n) ℚ) (i r : Fin n) :
    rowSwap M i r * P = rowSwap (M * P) i r := by
  funext j k
  rw [Matrix.mul_apply]
  show _ = (M * P) (Equiv.swap i r j) k
  rw [Matrix.mul_apply]
  rfl

theorem rowSwap_det_ne {n : ℕ} (M : Matrix (Fin n) (Fin n) ℚ) (i r : Fin n)
    (h : M.det ≠ 0) : (rowSwap M i r).det ≠ 0 := by
  rw [rowSwap_eq_submatrix, Matrix.det_permute]
  rcases Int.units_eq_one_or (Equiv.Perm.sign (Equiv.swap i r)) with hs | hs <;>
    · rw [hs]
      simpa using h

/-! ### elimination below the pivot as multiplication by a unit lower
triangular matrix -/

/-- The elementary matrix performing the whole `j`-loop of the elimination at
column `i`: identity except for the multipliers `-A[j][i]/A[i][i]` in column
`i` below the diagonal (for the rows the source's guard selects). -/
def elimMat {n : ℕ} (A : Matrix (Fin n) (Fin n) ℚ) (i : Fin n) :
    Matrix (Fin n) (Fin n) ℚ :=
  fun j k =>
    if j = k then 1
    else if k = i ∧ i < j ∧ A j i ≠ 0 then -(A j i) / A i i
    else 0

theorem elimMat_mul {n : ℕ} (A B : Matrix (Fin n) (Fin n) ℚ) (i : Fin n) :
    elimMat A i * B = elimB A B i := by
  funext j k
  rw [Matrix.mul_apply, elimB]
  by_cases hg : i < j ∧ A j i ≠ 0
  · have hji : j ≠ i := ne_of_gt hg.1
    have hrow : ∀ l, elimMat A i j l
        = (if l = j then 1 else 0) + (if l = i then -(A j i) / A i i else 0) := by
      intro l
      rw [elimMat]
      by_cases hlj : l = j
      · subst hlj
        rw [if_pos rfl, if_pos rfl, if_neg hji]
        norm_num
      · rw [if_neg (fun h => hlj h.symm), if_neg hlj]
        by_cases hli : l = i
        · subst hli
          rw [if_pos ⟨rfl, hg⟩, if_pos rfl]
          norm_num
        · rw [if_neg (fun h => hli h.1), if_neg hli]
          norm_num
    rw [if_pos hg]
    calc (∑ l, elimMat A i j l * B l k)
        = ∑ l, ((if l = j then B l k else 0) + (if l = i then -(A j i) / A i i * B l k else 0)) := by
          refine Finset.sum_congr rfl (fun l _ => ?_)
          rw [hrow l, add_mul, ite_mul, ite_mul, one_mul, zero_mul]
      _ = B j k + -(A j i) / A i i * B i k := by
          rw [Finset.sum_add_distrib, Finset.sum_ite_eq' Finset.univ j (fun l => B l k),
            Finset.sum_ite_eq' Finset.univ i (fun l => -(A j i) / A i i * B l k),
            if_pos (Finset.mem_univ j), if_pos (Finset.mem_univ i)]
  · have hrow : ∀ l, elimMat A i j l = if j = l then 1 else 0 := by
      intro l
      rw [elimMat]
      by_cases hlj : j = l
      · rw [if_pos hlj, if_pos hlj]
      · rw [if_neg hlj, if_neg hlj]
        rw [if_neg (fun h => hg h.2)]
    rw [if_neg hg]
    calc (∑ l, elimMat A i j l * B l k)
        = ∑ l, (if j = l then B l k else 0) := by
          refine Finset.sum_congr rfl (fun l _ => ?_)
          rw [hrow l, ite_mul, one_mul, zero_mul]
      _ = B j k := by
          rw [Finset.sum_ite_eq Finset.univ j (fun l => B l k), if_pos (Finset.mem_univ j)]

theorem elimMat_det {n : ℕ} (A : Matrix (Fin n) (Fin n) ℚ) (i : Fin n) :
    (elimMat A i).det = 1 := by
  have hlt : (elimMat A i).BlockTriangular OrderDual.toDual := by
    intro j k hjk
    have hjk' : j < k := hjk
    rw [elimMat, if_neg (ne_of_lt hjk')]
    rw [if_neg]
    rintro ⟨hki, hij, -⟩
    subst hki
    exact absurd (lt_trans hij hjk') (lt_irrefl _)
  rw [Matrix.det_of_lowerTriangular _ hlt]
  refine Finset.prod_eq_one (fun j _ => ?_)
  rw [elimMat, if_pos rfl]

theorem elimA_eq_elimB {n : ℕ} (A : Matrix (Fin n) (Fin n) ℚ) (i : Fin n)
    (hLP : ∀ j, i < j → A j i ≠ 0 → A i i ≠ 0) :
    elimA A i = elimB A A i := by
  funext j k
  rw [elimA, elimB]
  by_cases hg : i < j ∧ A j i ≠ 0
  · rw [if_pos hg, if_pos hg]
    by_cases hk : k = i
    · subst hk
      rw [if_pos rfl, div_mul_cancel₀ _ (hLP j hg.1 hg.2)]
      ring
    · rw [if_neg hk]
  · rw [if_neg hg, if_neg hg]

/-! ### the forward-phase invariant -/

/-- After the first `i` forward iterations: `B` tracks the row operations
(`B * A0 = A`), nonzero determinant is preserved, and the first `i` columns of
`A` are zero below the diagonal. -/
def FwdInv {n : ℕ} (A0 : Matrix (Fin n) (Fin n) ℚ) (i : ℕ)
    (AB : Matrix (Fin n) (Fin n) ℚ × Matrix (Fin n) (Fin n) ℚ) : Prop :=
  AB.2 * A0 = AB.1 ∧ (A0.det ≠ 0 → AB.1.det ≠ 0) ∧
    ∀ k j : Fin n, (k : ℕ) < i → k < j → AB.1 j k = 0

theorem fwdStep_inv {n : ℕ} (A0 : Matrix (Fin n) (Fin n) ℚ) (i : Fin n)
    (AB : Matrix (Fin n) (Fin n) ℚ × Matrix (Fin n) (Fin n) ℚ)
    (h : FwdInv A0 i.val AB) : FwdInv A0 (i.val + 1) (fwdStep AB i) := by
  obtain ⟨hmul, hdet, hech⟩ := h
  set A := AB.1 with hA
  set B := AB.2 with hB
  set r := pivotRow A i with hr
  have hir : i ≤ r := pivotRow_ge A i
  set A1 := rowSwap A i r with hA1
  set B1 := rowSwap B i r with hB1
  -- which rows the swap can produce, and where they sit
  have hswap_ge : ∀ j : Fin n, i ≤ j → i ≤ Equiv.swap i r j := by
    intro j hij
    rcases Equiv.swap_apply_def i r j with _
    rw [Equiv.swap_apply_def]
    by_cases hji : j = i
    · rw [if_pos hji]; exact hir
    · rw [if_neg hji]
      by_cases hjr : j = r
      · rw [if_pos hjr]
      · rw [if_neg hjr]; exact hij
  have hswap_gt : ∀ (k j : Fin n), k < i → k < j → k < Equiv.swap i r j := by
    intro k j hki hkj
    rw [Equiv.swap_apply_def]
    by_cases hji : j = i
    · rw [if_pos hji]; exact lt_of_lt_of_le hki hir
    · rw [if_neg hji]
      by_cases hjr : j = r
      · rw [if_pos hjr]; exact hki
      · rw [if_neg hjr]; exact hkj
  -- the local pivot property delivered by partial pivoting
  have hLP : ∀ j, i < j → A1 j i ≠ 0 → A1 i i ≠ 0 := by
    intro j hij hne
    have h1 : A1 i i = A r i := by
      show A (Equiv.swap i r i) i = A r i
      rw [Equiv.swap_apply_left]
    have h2 : |A1 j i| ≤ |A r i| := by
      show |A (Equiv.swap i r j) i| ≤ |A r i|
      exact pivotRow_max A i _ (hswap_ge j (le_of_lt hij))
    rw [h1]
    intro h0
    rw [h0, abs_zero] at h2
    exact hne (abs_eq_zero.mp (le_antisymm h2 (abs_nonneg _)))
  -- invariants after the swap
  have h1mul : B1 * A0 = A1 := by
    rw [hB1, hA1, rowSwap_mul, hmul]
  have h1det : A0.det ≠ 0 → A1.det ≠ 0 := fun h => rowSwap_det_ne A i r (hdet h)
  have h1ech : ∀ k j : Fin n, (k : ℕ) < i.val → k < j → A1 j k = 0 := by
    intro k j hk hkj
    show A (Equiv.swap i r j) k = 0
    have hki : k < i := hk
    exact hech k _ hk (hswap_gt k j hki hkj)
  -- invariants after the elimination
  have heqA : elimA A1 i = elimMat A1 i * A1 := by
    rw [elimA_eq_elimB A1 i hLP, elimMat_mul]
  have heqB : elimB A1 B1 i = elimMat A1 i * B1 := (elimMat_mul A1 B1 i).symm
  have hstep : fwdStep AB i = (elimA A1 i, elimB A1 B1 i) := rfl
  rw [hstep]
  refine ⟨?_, ?_, ?_⟩
  · show elimB A1 B1 i * A0 = elimA A1 i
    rw [heqB, heqA, Matrix.mul_assoc, h1mul]
  · intro h0
    show (elimA A1 i).det ≠ 0
    rw [heqA, Matrix.det_mul, elimMat_det, one_mul]
    exact h1det h0
  · intro k j hk hkj
    show elimA A1 i j k = 0
    rw [elimA]
    rcases Nat.lt_succ_iff_lt_or_eq.mp hk with hk' | hk'
    · -- a column strictly before `i` stays zero
      have hki : k < i := hk'
      by_cases hg : i < j ∧ A1 j i ≠ 0
      · rw [if_pos hg, if_neg (ne_of_lt hki),
          h1ech k j hk' hkj, h1ech k i hk' hki]
        ring
      · rw [if_neg hg]
        exact h1ech k j hk' hkj
    · -- column `i` is zeroed by this step
      have hki : k = i := Fin.ext hk'
      subst hki
      by_cases hg : k < j ∧ A1 j k ≠ 0
      · rw [if_pos hg, if_pos rfl]
      · rw [if_neg hg]
        by_cases hz : A1 j k = 0
        · exact hz
        · exact absurd ⟨hkj, hz⟩ hg

theorem forwardAux_inv {n : ℕ} (A0 : Matrix (Fin n) (Fin n) ℚ)
    (AB : Matrix (Fin n) (Fin n) ℚ × Matrix (Fin n) (Fin n) ℚ)
    (h0 : FwdInv A0 0 AB) : ∀ i, i ≤ n → FwdInv A0 i (forwardAux AB i) := by
  intro i
  induction i with
  | zero => intro _; exact h0
  | succ i ih =>
    intro hi
    have h : i < n := Nat.lt_of_succ_le hi
    show FwdInv A0 (i + 1) (forwardAux AB (i + 1))
    rw [forwardAux, dif_pos h]
    exact fwdStep_inv A0 ⟨i, h⟩ _ (ih (le_of_lt h))

theorem forward_inv {n : ℕ} (A : Matrix (Fin n) (Fin n) ℚ) :
    FwdInv A n (forward A) := by
  refine forwardAux_inv A _ ⟨?_, fun h => h, ?_⟩ n (le_refl n)
  · show DenseIdentity n * A = A
    rw [DenseIdentity_eq_one, one_mul]
  · intro k j hk
    exact absurd hk (Nat.not_lt_zero _)

/-! ### the backward phase: each step is left multiplication, and applied to
the triangular matrix itself it reaches the identity -/

theorem backStep_apply {n : ℕ} (T X : Matrix (Fin n) (Fin n) ℚ) (i j k : Fin n) :
    backStep T X i j k
      = if j = i then X i k / T i i
        else if j < i ∧ T j i ≠ 0 then X j k - T j i * (X i k / T i i)
        else X j k := rfl

theorem backStep_mul {n : ℕ} (T M B : Matrix (Fin n) (Fin n) ℚ) (i : Fin n) :
    backStep T (M * B) i = backStep T M i * B := by
  funext j k
  rw [Matrix.mul_apply, backStep_apply]
  by_cases hji : j = i
  · subst hji
    rw [if_pos rfl, Matrix.mul_apply, Finset.sum_div]
    refine Finset.sum_congr rfl (fun l _ => ?_)
    rw [backStep_apply, if_pos rfl, mul_div_right_comm]
  · rw [if_neg hji]
    by_cases hg : j < i ∧ T j i ≠ 0
    · rw [if_pos hg, Matrix.mul_apply, Matrix.mul_apply]
      have hsummand : ∀ l, backStep T M i j l * B l k
          = M j l * B l k - T j i * (M i l / T i i) * B l k := by
        intro l
        rw [backStep_apply, if_neg hji, if_pos hg, sub_mul]
      rw [Finset.sum_congr rfl (fun l _ => hsummand l), Finset.sum_sub_distrib]
      congr 1
      rw [Finset.sum_div, Finset.mul_sum]
      refine Finset.sum_congr rfl (fun l _ => ?_)
      rw [mul_div_right_comm, mul_assoc]
    · rw [if_neg hg, Matrix.mul_apply]
      refine Finset.sum_congr rfl (fun l _ => ?_)
      rw [backStep_apply, if_neg hji, if_neg hg]

theorem backFrom_mul {n : ℕ} (T : Matrix (Fin n) (Fin n) ℚ) (k : ℕ) :
    ∀ M B : Matrix (Fin n) (Fin n) ℚ, backFrom T k (M * B) = backFrom T k M * B := by
  induction k with
  | zero => intro M B; rfl
  | succ k ih =>
    intro M B
    by_cases h : k < n
    · have e1 : backFrom T (k + 1) (M * B) = backFrom T k (backStep T (M * B) ⟨k, h⟩) := by
        rw [backFrom, dif_pos h]
      have e2 : backFrom T (k + 1) M = backFrom T k (backStep T M ⟨k, h⟩) := by
        rw [backFrom, dif_pos h]
      rw [e1, e2, backStep_mul, ih]
    · have e1 : backFrom T (k + 1) (M * B) = backFrom T k (M * B) := by
        rw [backFrom, dif_neg h]
      have e2 : backFrom T (k + 1) M = backFrom T k M := by
        rw [backFrom, dif_neg h]
      rw [e1, e2, ih]

/-- State of the matrix the back-substitution steps have been applied to,
after the steps for rows `n-1, ..., i` have run: the leading `i × i` block
still holds `T`, rows at or past `i` are identity rows, and the block above
and right of the diagonal corner is cleared. -/
def BackInv {n : ℕ} (T : Matrix (Fin n) (Fin n) ℚ) (i : ℕ)
    (M : Matrix (Fin n) (Fin n) ℚ) : Prop :=
  (∀ j k : Fin n, (j : ℕ) < i → (k : ℕ) < i → M j k = T j k) ∧
  (∀ j k : Fin n, i ≤ (j : ℕ) → M j k = if j = k then 1 else 0) ∧
  (∀ j k : Fin n, (j : ℕ) < i → i ≤ (k : ℕ) → M j k = 0)

theorem backStep_inv {n : ℕ} (T : Matrix (Fin n) (Fin n) ℚ)
    (hUT : ∀ j k : Fin n, k < j → T j k = 0) (i : Fin n) (hTi : T i i ≠ 0)
    (M : Matrix (Fin n) (Fin n) ℚ) (h : BackInv T (i.val + 1) M) :
    BackInv T i.val (backStep T M i) := by
  obtain ⟨ha, hb, hc⟩ := h
  refine ⟨?_, ?_, ?_⟩
  · -- leading block: rows and columns strictly before `i` keep `T`
    intro j k hj hk
    have hjF : j < i := hj
    have hkF : k < i := hk
    rw [backStep_apply, if_neg (ne_of_lt hjF)]
    have hMik : M i k = T i k := ha i k (Nat.lt_succ_self _) (Nat.lt_succ_of_lt hk)
    have hTik : T i k = 0 := hUT i k hkF
    by_cases hg : j < i ∧ T j i ≠ 0
    · rw [if_pos hg, ha j k (Nat.lt_succ_of_lt hj) (Nat.lt_succ_of_lt hk), hMik, hTik]
      ring
    · rw [if_neg hg]
      exact ha j k (Nat.lt_succ_of_lt hj) (Nat.lt_succ_of_lt hk)
  · -- rows at or past `i` become identity rows
    intro j k hjge
    by_cases hji : j = i
    · subst hji
      rw [backStep_apply, if_pos rfl]
      by_cases hk : (k : ℕ) < j.val + 1
      · have hMik : M j k = T j k := ha j k (Nat.lt_succ_self _) hk
        by_cases hki : k = j
        · subst hki
          rw [hMik, div_self hTi, if_pos rfl]
        · have hklt : k < j := by
            rw [Fin.lt_def]
            rcases Nat.lt_succ_iff_lt_or_eq.mp hk with h' | h'
            · exact h'
            · exact absurd (Fin.ext h') hki
          rw [hMik, hUT j k hklt, zero_div, if_neg (fun h => hki h.symm)]
      · have hkge : j.val + 1 ≤ (k : ℕ) := Nat.le_of_not_lt hk
        rw [hc j k (Nat.lt_succ_self _) hkge, zero_div,
          if_neg (fun h => absurd (h ▸ hkge) (by omega))]
    · have hvne : (i : ℕ) ≠ (j : ℕ) := fun h => hji (Fin.ext h.symm)
      have hjgt : i < j := Fin.lt_def.mpr (lt_of_le_of_ne hjge hvne)
      rw [backStep_apply, if_neg hji, if_neg (fun hg => absurd hg.1 (not_lt.mpr (le_of_lt hjgt)))]
      exact hb j k (Nat.succ_le_of_lt hjgt)
  · -- the cleared block grows by the column `i`
    intro j k hj hk
    have hjF : j < i := hj
    rw [backStep_apply, if_neg (ne_of_lt hjF)]
    by_cases hki : k = i
    · subst hki
      have hMjk : M j k = T j k := ha j k (Nat.lt_succ_of_lt hj) (Nat.lt_succ_self _)
      have hMkk : M k k = T k k := ha k k (Nat.lt_succ_self _) (Nat.lt_succ_self _)
      by_cases hg : j < k ∧ T j k ≠ 0
      · rw [if_pos hg, hMjk, hMkk, div_self hTi]
        ring
      · rw [if_neg hg, hMjk]
        by_contra hne
        exact hg ⟨hjF, hne⟩
    · have hkge : i.val + 1 ≤ (k : ℕ) := by
        rcases Nat.lt_or_ge (k : ℕ) (i.val + 1) with h' | h'
        · exact absurd (Fin.ext (by omega : (k : ℕ) = i.val)) hki
        · exact h'
      have hMjk : M j k = 0 := hc j k (Nat.lt_succ_of_lt hj) hkge
      have hMik : M i k = 0 := hc i k (Nat.lt_succ_self _) hkge
      by_cases hg : j < i ∧ T j i ≠ 0
      · rw [if_pos hg, hMjk, hMik]
        ring
      · rw [if_neg hg, hMjk]

theorem backInv_top {n : ℕ} (T : Matrix (Fin n) (Fin n) ℚ) : BackInv T n T :=
  ⟨fun _ _ _ _ => rfl,
   fun j _ hj => absurd j.isLt (not_lt.mpr hj),
   fun _ k _ hk => absurd k.isLt (not_lt.mpr hk)⟩

theorem backFrom_eq_one {n : ℕ} (T : Matrix (Fin n) (Fin n) ℚ)
    (hUT : ∀ j k : Fin n, k < j → T j k = 0) (hTd : ∀ i : Fin n, T i i ≠ 0) :
    ∀ i : ℕ, i ≤ n → ∀ M : Matrix (Fin n) (Fin n) ℚ, BackInv T i M →
      backFrom T i M = 1 := by
  intro i
  induction i with
  | zero =>
    intro _ M hM
    show M = 1
    funext j k
    rw [hM.2.1 j k (Nat.zero_le _), Matrix.one_apply]
  | succ i ih =>
    intro hi M hM
    have h : i < n := Nat.lt_of_succ_le hi
    have e : backFrom T (i + 1) M = backFrom T i (backStep T M ⟨i, h⟩) := by
      rw [backFrom, dif_pos h]
    rw [e]
    exact ih (le_of_lt h) _ (backStep_inv T hUT ⟨i, h⟩ (hTd _) M hM)

/-! ### the general `inv` is a two-sided inverse -/

theorem inv_gauss_correct {n : ℕ} (A : Matrix (Fin n) (Fin n) ℚ) (hdet : A.det ≠ 0) :
    inv_gauss A * A = 1 ∧ A * inv_gauss A = 1 := by
  obtain ⟨hmul, hdetp, hech⟩ := forward_inv A
  have hUT : ∀ j k : Fin n, k < j → (forward A).1 j k = 0 :=
    fun j k hkj => hech k j k.isLt hkj
  have hTdet : (forward A).1.det ≠ 0 := hdetp hdet
  have hBT : ((forward A).1).BlockTriangular id := fun j k h => hUT j k h
  have hdiag : ∀ i : Fin n, (forward A).1 i i ≠ 0 := by
    intro i
    rw [Matrix.det_of_upperTriangular hBT] at hTdet
    exact Finset.prod_ne_zero_iff.mp hTdet i (Finset.mem_univ i)
  have hGT : backFrom (forward A).1 n (forward A).1 = 1 :=
    backFrom_eq_one (forward A).1 hUT hdiag n (le_refl n) _ (backInv_top _)
  have hIG : inv_gauss A = backFrom (forward A).1 n 1 * (forward A).2 := by
    show backFrom (forward A).1 n (forward A).2 = _
    rw [← backFrom_mul, one_mul]
  have hGT1 : backFrom (forward A).1 n 1 * (forward A).1 = 1 := by
    rw [← backFrom_mul, one_mul, hGT]
  have hleft : inv_gauss A * A = 1 := by
    rw [hIG, Matrix.mul_assoc, hmul, hGT1]
  exact ⟨hleft, Matrix.mul_eq_one_comm.mp hleft⟩

/--
**C2.** For every invertible square matrix of rationals, `inv` composes with
the matrix to the identity on both sides, in all three branches of tensor.hpp:
the closed-form 2×2 and 3×3 overloads (whenever the source's `det` is
nonzero), and the general Gauss-elimination branch used for `n > 3` (whenever
the determinant is nonzero).
-/
theorem inv_correct_all_sizes :
    (∀ A : Matrix (Fin 2) (Fin 2) ℚ, det2 A ≠ 0 →
        dot_mm A (inv2 A) = DenseIdentity 2 ∧ dot_mm (inv2 A) A = DenseIdentity 2) ∧
    (∀ A : Matrix (Fin 3) (Fin 3) ℚ, det3 A ≠ 0 →
        dot_mm A (inv3 A) = DenseIdentity 3 ∧ dot_mm (inv3 A) A = DenseIdentity 3) ∧
    (∀ (n : ℕ), 3 < n → ∀ A : Matrix (Fin n) (Fin n) ℚ, A.det ≠ 0 →
        dot_mm A (inv_gauss A) = DenseIdentity n ∧
          dot_mm (inv_gauss A) A = DenseIdentity n) := by
  refine ⟨inv2_correct, inv3_correct, ?_⟩
  intro n _ A hdet
  obtain ⟨hl, hr⟩ := inv_gauss_correct A hdet
  rw [dot_mm_eq_mul, dot_mm_eq_mul, DenseIdentity_eq_one]
  exact ⟨hr, hl⟩

/-- Closed witness for `inv_correct_all_sizes`: concrete invertible matrices
for each branch (4×4 for the general Gauss branch). -/
theorem inv_correct_all_sizes_witness :
    (dot_mm !![(2 : ℚ), 1; 1, 1] (inv2 !![(2 : ℚ), 1; 1, 1]) = DenseIdentity 2) ∧
    (dot_mm !![(1 : ℚ), 0, 0; 0, 2, 0; 0, 0, 3]
        (inv3 !![(1 : ℚ), 0, 0; 0, 2, 0; 0, 0, 3]) = DenseIdentity 3) ∧
    (dot_mm (1 : Matrix (Fin 4) (Fin 4) ℚ) (inv_gauss (1 : Matrix (Fin 4) (Fin 4) ℚ))
        = DenseIdentity 4) :=
  ⟨(inv_correct_all_sizes.1 !![(2 : ℚ), 1; 1, 1] (by norm_num [det2])).1,
   (inv_correct_all_sizes.2.1 !![(1 : ℚ), 0, 0; 0, 2, 0; 0, 0, 3]
      (by norm_num [det3])).1,
   (inv_correct_all_sizes.2.2 4 (by norm_num) (1 : Matrix (Fin 4) (Fin 4) ℚ)
      (by rw [Matrix.det_one]; norm_num)).1⟩

/-! ## Rank-generic tensors, `make_dual`, and the `zero` sentinel

`tensor<T, n...>` for an arbitrary extent pack `n...` is modelled by a
function out of a dependent index type: `TIndex ds` is the type of multi-index
tuples for the extent list `ds`. -/

/-- Multi-index type for a shape `ds`: one `Fin d` per extent. -/
def TIndex : List ℕ → Type
  | [] => Unit
  | d :: ds => Fin d × TIndex ds

instance TIndex.decEq : (ds : List ℕ) → DecidableEq (TIndex ds)
  | [] => inferInstanceAs (DecidableEq Unit)
  | _ :: ds =>
    have := TIndex.decEq ds
    inferInstanceAs (DecidableEq (_ × _))

/-- A rank-generic `tensor<double, ds...>`. -/
def Tensor (ds : List ℕ) : Type := TIndex ds → ℚ

/-- `dual<tensor<double, ds...>>`: a primal value paired with a tensor-shaped
gradient (dual.hpp; the field layout is visible in `tensor.hpp`'s
`dual<gradient_type>{value, gradient}`). -/
structure DualT (ds : List ℕ) where
  value : ℚ
  gradient : Tensor ds

/-- `make_dual` (tensor.hpp): starting from a zero tensor of duals, each entry
`i` gets `value = A(i)` and `gradient(i) = 1.0`, so the gradient of entry `i`
is the indicator tensor of the multi-index `i`. -/
def make_dual {ds : List ℕ} (A : Tensor ds) : TIndex ds → DualT ds :=
  fun i => ⟨A i, fun j => if j = i then 1 else 0⟩

/-- `get_value` on a tensor of duals (tensor.hpp). -/
def get_value {ds ms : List ℕ} (arg : TIndex ds → DualT ms) : Tensor ds :=
  fun i => (arg i).value

/-- `get_gradient` on a tensor of duals with tensor-shaped gradients
(tensor.hpp): the result has doubled rank, `g(i..., j...) = arg(i...).gradient(j...)`;
we represent the rank-`(ds ++ ms)` result in curried form. -/
def get_gradient {ds ms : List ℕ} (arg : TIndex ds → DualT ms) :
    TIndex ds → TIndex ms → ℚ :=
  fun i j => (arg i).gradient j

/--
**C5.** For every tensor `A` of any fixed shape, `make_dual` preserves the
primal part and seeds an identity gradient: the gradient of entry `i` has a
single `1` at position `i` and `0` elsewhere, so `get_gradient (make_dual A)`
is the identity tensor of doubled rank.
-/
theorem make_dual_seeds_identity {ds : List ℕ} (A : Tensor ds) :
    get_value (make_dual A) = A ∧
      ∀ i j : TIndex ds, get_gradient (make_dual A) i j = if i = j then 1 else 0 := by
  constructor
  · funext i
    rfl
  · intro i j
    show (if j = i then (1 : ℚ) else 0) = if i = j then 1 else 0
    by_cases h : i = j
    · simp [h]
    · rw [if_neg h, if_neg (fun hji => h hji.symm)]

/-! ### the `zero` sentinel (tensor.hpp)

`struct zero` is a unit type; its operator overloads either return the other
operand or the sentinel itself, and it converts to any tensor shape as the
zero-filled tensor and to `double` as `0.0`. -/

/-- The `zero` sentinel type of tensor.hpp. -/
structure ZeroSent where

/-- `zero`'s conversion `operator tensor<T, n...>()`: the zero-filled tensor. -/
def ZeroSent.toTensor (_ : ZeroSent) (ds : List ℕ) : Tensor ds := fun _ => 0

/-- `zero`'s conversion `operator double()`: `0.0`. -/
def ZeroSent.toDouble (_ : ZeroSent) : ℚ := 0

/-- `operator+(zero, T other)` (tensor.hpp): returns `other`. -/
def zero_add_right {α : Type _} (_ : ZeroSent) (other : α) : α := other

/-- `operator+(T other, zero)` (tensor.hpp): returns `other`. -/
def zero_add_left {α : Type _} (other : α) (_ : ZeroSent) : α := other

/-- `operator*(zero, T)` (tensor.hpp): returns `zero{}`. -/
def zmul_right {α : Type _} (_ : ZeroSent) (_ : α) : ZeroSent := ZeroSent.mk

/-- `operator*(T, zero)` (tensor.hpp): returns `zero{}`. -/
def zmul_left {α : Type _} (_ : α) (_ : ZeroSent) : ZeroSent := ZeroSent.mk

/-- `operator/(zero, T)` (tensor.hpp): returns `zero{}`. -/
def zdiv_right {α : Type _} (_ : ZeroSent) (_ : α) : ZeroSent := ZeroSent.mk

/-- entrywise tensor sum, the collapse of the recursive `operator+` on
`tensor` (tensor.hpp) to the rank-generic representation. -/
def tadd {ds : List ℕ} (A B : Tensor ds) : Tensor ds := fun i => A i + B i

/-- entrywise scalar–tensor product (`operator*(S, tensor)` of tensor.hpp). -/
def tsmul {ds : List ℕ} (s : ℚ) (A : Tensor ds) : Tensor ds := fun i => s * A i

/-- entrywise scalar-over-tensor division restricted to the well-formed
rank-preserving reading (`operator/(S, tensor)`, cf. C4). -/
def tsdiv {ds : List ℕ} (s : ℚ) (A : Tensor ds) : Tensor ds := fun i => s / A i

/--
**C8.** `zero` is an additive identity and a multiplicative absorbing element
for every operator it participates in, for scalars and tensors of every
shape: the overloads return the other operand (resp. the sentinel), and those
shortcut results agree with the semantic value of `zero` (its conversion to
the zero scalar / zero-filled tensor) under the ordinary tensor operators.
-/
theorem zero_sentinel_identity_absorbing :
    (∀ (α : Type) (z : ZeroSent) (x : α),
        zero_add_right z x = x ∧ zero_add_left x z = x ∧
        zmul_right z x = ZeroSent.mk ∧ zmul_left x z = ZeroSent.mk ∧
        zdiv_right z x = ZeroSent.mk) ∧
    (∀ (z : ZeroSent) (s : ℚ),
        z.toDouble + s = s ∧ s + z.toDouble = s ∧
        z.toDouble * s = z.toDouble ∧ s * z.toDouble = z.toDouble ∧
        z.toDouble / s = z.toDouble) ∧
    (∀ (z : ZeroSent) (ds : List ℕ) (x : Tensor ds),
        tadd (z.toTensor ds) x = x ∧ tadd x (z.toTensor ds) = x ∧
        tsmul z.toDouble x = z.toTensor ds ∧ tsdiv z.toDouble x = z.toTensor ds) := by
  refine ⟨?_, ?_, ?_⟩
  · intro α z x
    exact ⟨rfl, rfl, rfl, rfl, rfl⟩
  · intro z s
    refine ⟨zero_add s, add_zero s, zero_mul s, mul_zero s, zero_div s⟩
  · intro z ds x
    refine ⟨?_, ?_, ?_, ?_⟩
    · funext i
      exact zero_add (x i)
    · funext i
      exact add_zero (x i)
    · funext i
      exact zero_mul (x i)
    · funext i
      exact zero_div (x i)

/-! ## The `BoundaryIntegral` facade (boundary_integral.hpp)

The facade's dispatch (`Mult`, `GradientMult`) is embedded from the source.
The kernels it dispatches to (`boundary_integral::evaluation_kernel` and the
gradient kernels) and the scalar `dual` arithmetic live in headers that are
not part of the provided sources, so they are modelled from the spec below
(marked `Modelled from the spec:`). -/

/-- Modelled from the spec: the scalar forward-mode dual number of dual.hpp
("wraps a value together with its derivative"); its field layout (`value`,
`gradient`) is visible in tensor.hpp's `dual<gradient_type>{value, gradient}`. -/
structure DualQ where
  value : ℚ
  gradient : ℚ

/-- Modelled from the spec: dual arithmetic propagates "the ordinary operator
applied to both values" as the value and the analytic partial derivatives
applied to the operand gradients (sum, product and quotient rules). -/
def DualQ.add (a b : DualQ) : DualQ := ⟨a.value + b.value, a.gradient + b.gradient⟩

/-- Modelled from the spec: dual subtraction. -/
def DualQ.sub (a b : DualQ) : DualQ := ⟨a.value - b.value, a.gradient - b.gradient⟩

/-- Modelled from the spec: dual product (product rule). -/
def DualQ.mul (a b : DualQ) : DualQ :=
  ⟨a.value * b.value, a.gradient * b.value + a.value * b.gradient⟩

/-- Modelled from the spec: dual quotient (quotient rule). -/
def DualQ.div (a b : DualQ) : DualQ :=
  ⟨a.value / b.value,
   (a.gradient * b.value - a.value * b.gradient) / (b.value * b.value)⟩

/-- Modelled from the spec: dual negation. -/
def DualQ.neg (a : DualQ) : DualQ := ⟨-a.value, -a.gradient⟩

/-- A q-function body: an expression in one scalar field value, built from the
supported arithmetic operators (the physics-module author's contract is that
the integrand is "implemented only in terms of the supported tensor/dual
operators"). -/
inductive QExpr where
  | var : QExpr
  | const : ℚ → QExpr
  | add : QExpr → QExpr → QExpr
  | sub : QExpr → QExpr → QExpr
  | mul : QExpr → QExpr → QExpr
  | div : QExpr → QExpr → QExpr
  | neg : QExpr → QExpr

/-- plain (primal-only) evaluation of a q-function body. -/
def qeval : QExpr → ℚ → ℚ
  | .var, x => x
  | .const c, _ => c
  | .add a b, x => qeval a x + qeval b x
  | .sub a b, x => qeval a x - qeval b x
  | .mul a b, x => qeval a x * qeval b x
  | .div a b, x => qeval a x / qeval b x
  | .neg a, x => -qeval a x

/-- dual-number evaluation of a q-function body. -/
def qevalD : QExpr → DualQ → DualQ
  | .var, d => d
  | .const c, _ => ⟨c, 0⟩
  | .add a b, d => (qevalD a d).add (qevalD b d)
  | .sub a b, d => (qevalD a d).sub (qevalD b d)
  | .mul a b, d => (qevalD a d).mul (qevalD b d)
  | .div a b, d => (qevalD a d).div (qevalD b d)
  | .neg a, d => (qevalD a d).neg

/-- Value/derivative consistency of the dual arithmetic: the primal slot of a
dual evaluation is the plain evaluation of the primal slot of the input. -/
theorem qevalD_value (f : QExpr) (d : DualQ) : (qevalD f d).value = qeval f d.value := by
  induction f with
  | var => rfl
  | const c => rfl
  | add a b iha ihb => simp [qevalD, qeval, DualQ.add, iha, ihb]
  | sub a b iha ihb => simp [qevalD, qeval, DualQ.sub, iha, ihb]
  | mul a b iha ihb => simp [qevalD, qeval, DualQ.mul, iha, ihb]
  | div a b iha ihb => simp [qevalD, qeval, DualQ.div, iha, ihb]
  | neg a iha => simp [qevalD, qeval, DualQ.neg, iha]

/-- A configured `BoundaryIntegral` over `ne` elements with `nq` quadrature
points per element: the per-point geometric factor (quadrature weight times
Jacobian factor) and the q-function. -/
structure BIConfig (ne nq : ℕ) where
  geom : Fin ne → Fin nq → ℚ
  qf : QExpr

/-- The mutable state of a `BoundaryIntegral`: one derivative cache per trial
field, holding the q-function derivative at every (element, quadrature point).
`make_shared_array` value-initialises the allocation, so a fresh integral's
caches are zero-filled. -/
structure BIState (ne nq : ℕ) where
  caches : ℕ → Fin ne → Fin nq → ℚ

/-- The state right after construction: zero-filled derivative caches. -/
def initState (ne nq : ℕ) : BIState ne nq := ⟨fun _ _ _ => 0⟩

/-- Modelled from the spec: the plain evaluation kernel
(`boundary_integral::evaluation_kernel`, not under src/) "applies the
integrand at every (element, quadrature point) using only primal values" and
produces per-element residual contributions "weighted by quadrature weight and
Jacobian determinant". -/
def evaluation_kernel {ne nq : ℕ} (cfg : BIConfig ne nq) (U : Fin ne → Fin nq → ℚ) :
    Fin ne → ℚ :=
  fun e => ∑ q, cfg.geom e q * qeval cfg.qf (U e q)

/-- Modelled from the spec: the AD evaluation kernel is "identical, but the
selected trial field's input is wrapped via `make_dual` before the call; the
primal part still produces the residual ... while the gradient part is written
into that trial field's derivative cache". Returns (residual, cache written). -/
def evaluation_kernel_AD {ne nq : ℕ} (cfg : BIConfig ne nq) (U : Fin ne → Fin nq → ℚ) :
    (Fin ne → ℚ) × (Fin ne → Fin nq → ℚ) :=
  (fun e => ∑ q, cfg.geom e q * (qevalD cfg.qf ⟨U e q, 1⟩).value,
   fun e q => (qevalD cfg.qf ⟨U e q, 1⟩).gradient)

/-- The two dispatch targets of `BoundaryIntegral::Mult`. -/
inductive KernelPath where
  | plain : KernelPath
  | withAD : ℤ → KernelPath
deriving DecidableEq

/-- `BoundaryIntegral::Mult` dispatch (boundary_integral.hpp, lines 167-174):
`which == -1` calls `evaluation_`, anything else calls
`evaluation_with_AD_[which]`. -/
def multDispatch (which : ℤ) : KernelPath :=
  if which = -1 then .plain else .withAD which

/-- `BoundaryIntegral::Mult` (boundary_integral.hpp): runs the kernel chosen
by `multDispatch`; the AD path overwrites the selected trial field's
derivative cache and the plain path touches no state. -/
def Mult {ne nq : ℕ} (cfg : BIConfig ne nq) (st : BIState ne nq)
    (U : Fin ne → Fin nq → ℚ) (which : ℤ) : (Fin ne → ℚ) × BIState ne nq :=
  match multDispatch which with
  | .plain => (evaluation_kernel cfg U, st)
  | .withAD i =>
      let rc := evaluation_kernel_AD cfg U
      (rc.1, ⟨Function.update st.caches i.toNat rc.2⟩)

/-- Modelled from the spec: the action-of-gradient kernel "reads the
derivative cache and, for a given direction vector, computes the
Jacobian-vector product at each quadrature point". -/
def action_of_gradient_kernel {ne nq : ℕ} (geom : Fin ne → Fin nq → ℚ)
    (cache : Fin ne → Fin nq → ℚ) (dU : Fin ne → Fin nq → ℚ) : Fin ne → ℚ :=
  fun e => ∑ q, geom e q * cache e q * dU e q

/-- `BoundaryIntegral::GradientMult` (boundary_integral.hpp, lines 182-185):
invokes `action_of_gradient_[which]`, which reads the cache and writes the
output; the integral's state is not modified. -/
def GradientMult {ne nq : ℕ} (cfg : BIConfig ne nq) (st : BIState ne nq)
    (dU : Fin ne → Fin nq → ℚ) (which : ℕ) : (Fin ne → ℚ) × BIState ne nq :=
  (action_of_gradient_kernel cfg.geom (st.caches which) dU, st)

/-- Modelled from the spec: the element-gradient kernel "reads the derivative
cache and assembles, for each element, the dense local Jacobian block". -/
def element_gradient_kernel {ne nq : ℕ} (geom : Fin ne → Fin nq → ℚ)
    (cache : Fin ne → Fin nq → ℚ) : Fin ne → Fin nq → ℚ :=
  fun e q => geom e q * cache e q

/-- `BoundaryIntegral::ComputeElementGradients` (boundary_integral.hpp):
invokes `element_gradient_[which]`; the state is not modified. -/
def ComputeElementGradients {ne nq : ℕ} (cfg : BIConfig ne nq) (st : BIState ne nq)
    (which : ℕ) : (Fin ne → Fin nq → ℚ) × BIState ne nq :=
  (element_gradient_kernel cfg.geom (st.caches which), st)

/--
**C7.** `Mult` invokes the plain evaluation kernel exactly when `which = -1`,
invokes the AD kernel for trial field `which` whenever `which ≥ 0`, and has no
third dispatch path.
-/
theorem mult_dispatch_spec :
    (∀ which : ℤ, multDispatch which = .plain ↔ which = -1) ∧
    (∀ which : ℤ, 0 ≤ which → multDispatch which = .withAD which) ∧
    (∀ which : ℤ, multDispatch which = .plain ∨ multDispatch which = .withAD which) := by
  refine ⟨?_, ?_, ?_⟩
  · intro which
    constructor
    · intro h
      by_contra hne
      rw [multDispatch, if_neg hne] at h
      exact KernelPath.noConfusion h
    · intro h
      rw [multDispatch, if_pos h]
  · intro which h
    rw [multDispatch, if_neg (by omega)]
  · intro which
    by_cases h : which = -1
    · exact Or.inl (by rw [multDispatch, if_pos h])
    · exact Or.inr (by rw [multDispatch, if_neg h])

/-- Closed witness for `mult_dispatch_spec`. -/
theorem mult_dispatch_spec_witness :
    multDispatch 2 = .withAD 2 ∧ (multDispatch (-1) = .plain ↔ (-1 : ℤ) = -1) :=
  ⟨mult_dispatch_spec.2.1 2 (by decide), mult_dispatch_spec.1 (-1)⟩

/--
**C1.** For every configuration, state and per-element input, `Mult` with AD
enabled for a trial field (`which ≥ 0`) writes the same residual as plain
evaluation (`which = -1`) on the same input, and changes only that trial
field's derivative cache; plain evaluation changes no state at all.
(The evaluation kernels are modelled from the spec; the dual-arithmetic value
consistency is proved by `qevalD_value`.)
-/
theorem mult_AD_residual_matches_plain {ne nq : ℕ} (cfg : BIConfig ne nq)
    (st : BIState ne nq) (U : Fin ne → Fin nq → ℚ) (which : ℤ) (h : 0 ≤ which) :
    (Mult cfg st U which).1 = (Mult cfg st U (-1)).1 ∧
    (∀ j : ℕ, j ≠ which.toNat → (Mult cfg st U which).2.caches j = st.caches j) ∧
    (Mult cfg st U (-1)).2 = st := by
  have hdisp : multDispatch which = .withAD which := mult_dispatch_spec.2.1 which h
  have hplain : multDispatch (-1) = .plain := (mult_dispatch_spec.1 (-1)).mpr rfl
  refine ⟨?_, ?_, ?_⟩
  · show (Mult cfg st U which).1 = (Mult cfg st U (-1)).1
    rw [Mult, Mult, hdisp, hplain]
    funext e
    show (∑ q, cfg.geom e q * (qevalD cfg.qf ⟨U e q, 1⟩).value)
      = ∑ q, cfg.geom e q * qeval cfg.qf (U e q)
    refine Finset.sum_congr rfl (fun q _ => ?_)
    rw [qevalD_value]
  · intro j hj
    rw [Mult, hdisp]
    exact Function.update_noteq hj _ _
  · rw [Mult, hplain]

/-- Closed witness for `mult_AD_residual_matches_plain`: one element, one
quadrature point, the nonlinear q-function `f(u) = u * u`, input `u = 3`,
trial field `0`. -/
theorem mult_AD_residual_matches_plain_witness :
    ((0 : ℤ) ≤ 0) ∧
      (Mult ⟨fun _ _ => 1, .mul .var .var⟩ (initState 1 1) (fun _ _ => 3) 0).1
        = (Mult ⟨fun _ _ => 1, .mul .var .var⟩ (initState 1 1) (fun _ _ => 3) (-1)).1 :=
  ⟨le_refl 0,
   (mult_AD_residual_matches_plain ⟨fun _ _ => 1, .mul .var .var⟩ (initState 1 1)
      (fun _ _ => 3) 0 (le_refl 0)).1⟩

/--
**C9.** Calling `GradientMult` or `ComputeElementGradients` on a freshly
constructed `BoundaryIntegral` (before any AD-enabled `Mult`) does not fail:
it reads the zero-filled derivative cache, produces zero derivative data, and
leaves the integral's state unchanged. (The gradient kernels are modelled
from the spec; both are total functions, so no error is raised.)
-/
theorem gradient_before_AD_is_zero {ne nq : ℕ} (cfg : BIConfig ne nq)
    (dU : Fin ne → Fin nq → ℚ) (which : ℕ) :
    (GradientMult cfg (initState ne nq) dU which).1 = (fun _ => 0) ∧
    (GradientMult cfg (initState ne nq) dU which).2 = initState ne nq ∧
    (ComputeElementGradients cfg (initState ne nq) which).1 = (fun _ _ => 0) ∧
    (ComputeElementGradients cfg (initState ne nq) which).2 = initState ne nq := by
  refine ⟨?_, rfl, ?_, rfl⟩
  · funext e
    show (∑ q, cfg.geom e q * 0 * dU e q) = 0
    simp
  · funext e q
    show cfg.geom e q * 0 = 0
    simp

end Serac
